import Mathlib

/-!
Verification development for the blog-submission application and its
metadata ETL pipeline. The browser form logic is embedded from
src/_agents/script.js; the agentic metadata pipeline (Validator,
Normalizer, Orchestrator, Agent Stage Runner, ETL Driver, Store Writer)
is not shipped in this repository, so those components are modelled
from the design document, section by section. Strings are modelled as
lists of Unicode scalar values.
-/

/-- Strings are modelled as lists of Unicode scalar values. -/
abbrev Str := List Char

/-- Whitespace characters recognised by trimming and word splitting:
space, tab, line feed, carriage return. -/
def isWs (c : Char) : Bool :=
  c.toNat = 32 || c.toNat = 9 || c.toNat = 10 || c.toNat = 13

/-- `String.prototype.trim`: drop leading and trailing whitespace. -/
def trimWs (s : Str) : Str :=
  ((s.dropWhile isWs).reverse.dropWhile isWs).reverse

/-- Word splitting worker: `cur` holds the reversed current word. -/
def splitWordsAux : Str → Str → List Str
  | [], cur => if cur.isEmpty then [] else [cur.reverse]
  | c :: rest, cur =>
    if isWs c then
      if cur.isEmpty then splitWordsAux rest []
      else cur.reverse :: splitWordsAux rest []
    else splitWordsAux rest (c :: cur)

/-- Split a string into its maximal whitespace-free words. -/
def splitWords (s : Str) : List Str :=
  splitWordsAux s []

/-- Join words with single spaces. -/
def joinWords : List Str → Str
  | [] => []
  | [w] => w
  | w :: w2 :: ws => w ++ ' ' :: joinWords (w2 :: ws)

/-- Trim and collapse internal whitespace runs to single spaces
(the text cleanup the Normalizer applies to title/author/content). -/
def collapseWs (s : Str) : Str :=
  joinWords (splitWords s)

/-- Word count of a string, splitting on whitespace. -/
def wordCount (s : Str) : Nat :=
  (splitWords s).length

/-- ASCII lower-casing of one character. -/
def lowerChar (c : Char) : Char :=
  if 65 ≤ c.toNat ∧ c.toNat ≤ 90 then Char.ofNat (c.toNat + 32) else c

/-- Case-folding of a string (per-character lower-casing). -/
def foldCase (s : Str) : Str :=
  s.map lowerChar

/-- Control characters (C0 range and DEL). -/
def isCtrl (c : Char) : Bool :=
  c.toNat < 32 || c.toNat = 127

/-- Tag canonicalization used by the Normalizer: lower-case, then trim. -/
def tagNorm (t : Str) : Str :=
  trimWs (foldCase t)

theorem charOfNatToNat (n : Nat) (h : n.isValidChar) : (Char.ofNat n).toNat = n := by
  unfold Char.ofNat
  simp [Char.ofNatAux, h, Char.toNat, UInt32.toNat, BitVec.toNat_ofNatLt]

theorem charToNatInj (a b : Char) (h : a.toNat = b.toNat) : a = b := by
  apply Char.eq_of_val_eq
  apply UInt32.eq_of_toBitVec_eq
  apply BitVec.eq_of_toNat_eq
  exact h

theorem lowerChar_eq_self (c : Char) (h : ¬(65 ≤ c.toNat ∧ c.toNat ≤ 90)) :
    lowerChar c = c := by
  rw [lowerChar, if_neg h]

theorem lowerChar_toNat (c : Char) (h : 65 ≤ c.toNat ∧ c.toNat ≤ 90) :
    (lowerChar c).toNat = c.toNat + 32 := by
  have hv : (c.toNat + 32).isValidChar := Or.inl (by omega)
  rw [lowerChar, if_pos h]
  exact charOfNatToNat _ hv

theorem lowerChar_idem (c : Char) : lowerChar (lowerChar c) = lowerChar c := by
  by_cases h : 65 ≤ c.toNat ∧ c.toNat ≤ 90
  · have ht := lowerChar_toNat c h
    apply lowerChar_eq_self
    rw [ht]
    omega
  · rw [lowerChar_eq_self c h, lowerChar_eq_self c h]

theorem lowerChar_isWs (c : Char) : isWs (lowerChar c) = isWs c := by
  by_cases h : 65 ≤ c.toNat ∧ c.toNat ≤ 90
  · have ht := lowerChar_toNat c h
    have h1 : isWs (lowerChar c) = false := by
      simp only [isWs, ht, Bool.or_eq_false_iff, decide_eq_false_iff_not]
      omega
    have h2 : isWs c = false := by
      simp only [isWs, Bool.or_eq_false_iff, decide_eq_false_iff_not]
      omega
    rw [h1, h2]
  · rw [lowerChar_eq_self c h]

theorem dropWhile_head_false {α : Type} (p : α → Bool) :
    ∀ (l : List α) (c : α) (r : List α), l.dropWhile p = c :: r → p c = false := by
  intro l
  induction l with
  | nil => intro c r h; simp [List.dropWhile] at h
  | cons a t ih =>
    intro c r h
    rw [List.dropWhile_cons] at h
    by_cases hp : p a
    · rw [if_pos hp] at h
      exact ih c r h
    · rw [if_neg hp] at h
      cases h
      simpa using hp

theorem dropWhile_eq_self_of_head {α : Type} (p : α → Bool) (l : List α)
    (h : ∀ c, l.head? = some c → p c = false) : l.dropWhile p = l := by
  cases l with
  | nil => rfl
  | cons a t =>
    rw [List.dropWhile_cons, if_neg]
    simp [h a rfl]

theorem trimWs_head (s : Str) (c : Char) (h : (trimWs s).head? = some c) :
    isWs c = false := by
  rw [trimWs, List.head?_reverse] at h
  rcases hm : List.dropWhile isWs (s.dropWhile isWs).reverse with _ | ⟨a, m⟩
  · rw [hm] at h
    simp at h
  · have hsuf := List.dropWhile_suffix (l := (s.dropWhile isWs).reverse) isWs
    rw [hm] at hsuf
    rcases hsuf with ⟨t, ht⟩
    have h2 : ((s.dropWhile isWs).reverse).getLast? = some c := by
      rw [← ht, List.getLast?_append_of_ne_nil t (by simp)]
      rw [hm] at h
      exact h
    rw [List.getLast?_reverse] at h2
    rcases hd : s.dropWhile isWs with _ | ⟨b, d⟩
    · rw [hd] at h2
      simp at h2
    · rw [hd] at h2
      simp at h2
      subst h2
      exact dropWhile_head_false isWs s b d hd

theorem trimWs_last (s : Str) (c : Char) (h : (trimWs s).getLast? = some c) :
    isWs c = false := by
  rw [trimWs, List.getLast?_reverse] at h
  rcases hm : List.dropWhile isWs (s.dropWhile isWs).reverse with _ | ⟨a, m⟩
  · rw [hm] at h
    simp at h
  · rw [hm] at h
    simp at h
    subst h
    exact dropWhile_head_false isWs _ a m hm

theorem trimWs_eq_self (l : Str)
    (h1 : ∀ c, l.head? = some c → isWs c = false)
    (h2 : ∀ c, l.getLast? = some c → isWs c = false) : trimWs l = l := by
  rw [trimWs, dropWhile_eq_self_of_head isWs l h1, dropWhile_eq_self_of_head, List.reverse_reverse]
  intro c hc
  rw [List.head?_reverse] at hc
  exact h2 c hc

theorem trimWs_idem (s : Str) : trimWs (trimWs s) = trimWs s :=
  trimWs_eq_self (trimWs s) (trimWs_head s) (trimWs_last s)

theorem map_dropWhile_comm (l : Str) :
    (l.dropWhile isWs).map lowerChar = (l.map lowerChar).dropWhile isWs := by
  induction l with
  | nil => rfl
  | cons a t ih =>
    rw [List.map_cons, List.dropWhile_cons, List.dropWhile_cons, lowerChar_isWs]
    by_cases hp : isWs a
    · rw [if_pos hp, if_pos hp]
      exact ih
    · rw [if_neg hp, if_neg hp, List.map_cons]

theorem map_trimWs_comm (s : Str) :
    (trimWs s).map lowerChar = trimWs (s.map lowerChar) := by
  rw [trimWs, trimWs, List.map_reverse, map_dropWhile_comm, List.map_reverse, map_dropWhile_comm]

theorem tagNorm_idem (t : Str) : tagNorm (tagNorm t) = tagNorm t := by
  simp only [tagNorm, foldCase]
  rw [map_trimWs_comm, List.map_map]
  have hmm : (List.map (lowerChar ∘ lowerChar) t) = List.map lowerChar t := by
    apply List.map_congr_left
    intro a _
    exact lowerChar_idem a
  rw [hmm, trimWs_idem]

theorem isWs_space : isWs ' ' = true := by decide

theorem splitWordsAux_accum (w : Str) (hnw : ∀ c ∈ w, isWs c = false) :
    ∀ (x cur : Str), splitWordsAux (w ++ x) cur = splitWordsAux x (w.reverse ++ cur) := by
  induction w with
  | nil =>
    intro x cur
    simp
  | cons a t ih =>
    intro x cur
    have ha : isWs a = false := hnw a (by simp)
    rw [List.cons_append, splitWordsAux, if_neg (by simp [ha])]
    rw [ih (fun c hc => hnw c (by simp [hc])) x (a :: cur)]
    simp

theorem rev_word_good (cur : Str) (hc : ¬cur.isEmpty = true) (hcur : ∀ c ∈ cur, isWs c = false) :
    cur.reverse ≠ [] ∧ ∀ c ∈ cur.reverse, isWs c = false := by
  constructor
  · intro hnil
    apply hc
    rw [List.isEmpty_iff]
    exact List.reverse_eq_nil_iff.mp hnil
  · intro c hcw
    exact hcur c (by simpa using hcw)

theorem splitWords_word (w : Str) (hw : w ≠ []) (hnw : ∀ c ∈ w, isWs c = false) :
    splitWords w = [w] := by
  have h := splitWordsAux_accum w hnw [] []
  rw [List.append_nil] at h
  rw [splitWords, h, splitWordsAux, if_neg (by simp [hw])]
  simp

theorem splitWords_append_word (w t : Str) (hw : w ≠ []) (hnw : ∀ c ∈ w, isWs c = false) :
    splitWords (w ++ ' ' :: t) = w :: splitWords t := by
  rw [splitWords, splitWordsAux_accum w hnw (' ' :: t) [], splitWordsAux, if_pos isWs_space,
    if_neg (by simp [hw])]
  simp [splitWords]

theorem splitWords_nonws (l : Str) :
    ∀ w ∈ splitWords l, w ≠ [] ∧ ∀ c ∈ w, isWs c = false := by
  have key : ∀ (l cur : Str), (∀ c ∈ cur, isWs c = false) →
      ∀ w ∈ splitWordsAux l cur, w ≠ [] ∧ ∀ c ∈ w, isWs c = false := by
    intro l
    induction l with
    | nil =>
      intro cur hcur w hw
      rw [splitWordsAux] at hw
      by_cases hc : cur.isEmpty = true
      · rw [if_pos hc] at hw
        simp at hw
      · rw [if_neg hc] at hw
        simp at hw
        subst hw
        exact rev_word_good cur hc hcur
    | cons a rest ih =>
      intro cur hcur w hw
      rw [splitWordsAux] at hw
      by_cases ha : isWs a = true
      · rw [if_pos ha] at hw
        by_cases hc : cur.isEmpty = true
        · rw [if_pos hc] at hw
          exact ih [] (by simp) w hw
        · rw [if_neg hc] at hw
          rcases List.mem_cons.mp hw with h | h
          · subst h
            exact rev_word_good cur hc hcur
          · exact ih [] (by simp) w h
      · rw [if_neg ha] at hw
        refine ih (a :: cur) ?_ w hw
        intro c hcm
        rcases List.mem_cons.mp hcm with h | h
        · subst h
          simpa using ha
        · exact hcur c h
  intro w hw
  exact key l [] (by simp) w hw

theorem splitWords_joinWords :
    ∀ ws : List Str, (∀ w ∈ ws, w ≠ [] ∧ ∀ c ∈ w, isWs c = false) →
      splitWords (joinWords ws) = ws := by
  intro ws
  induction ws with
  | nil =>
    intro _
    simp [joinWords, splitWords, splitWordsAux]
  | cons w ws ih =>
    intro h
    have hw := h w (by simp)
    rcases ws with _ | ⟨w2, ws2⟩
    · rw [joinWords]
      exact splitWords_word w hw.1 hw.2
    · rw [joinWords, splitWords_append_word w (joinWords (w2 :: ws2)) hw.1 hw.2]
      rw [ih (fun v hv => h v (by simp [hv]))]

theorem collapseWs_idem (s : Str) : collapseWs (collapseWs s) = collapseWs s := by
  rw [collapseWs, collapseWs, splitWords_joinWords (splitWords s) (splitWords_nonws s)]

/-! ## Embedding of src/_agents/script.js -/

/-- The form data collected by the submit handler: title/author/email are
trimmed, content and category are taken as-is. -/
structure FormData where
  title : Str
  author : Str
  email : Str
  content : Str
  category : Str
deriving DecidableEq

/-- `parsedData` extended with `submissionDate` via the spread operator. -/
structure UpdatedParsed where
  title : Str
  author : Str
  email : Str
  content : Str
  category : Str
  submissionDate : Str
deriving DecidableEq

/-- Lower-case hexadecimal digit, as emitted by JSON.stringify escapes. -/
def hexDigit (n : Nat) : Char :=
  if n < 10 then Char.ofNat (48 + n) else Char.ofNat (87 + n)

/-- Value of a hexadecimal digit character (either case), as accepted by
JSON.parse unicode escapes. -/
def hexVal (c : Char) : Option Nat :=
  if 48 ≤ c.toNat ∧ c.toNat ≤ 57 then some (c.toNat - 48)
  else if 97 ≤ c.toNat ∧ c.toNat ≤ 102 then some (c.toNat - 87)
  else if 65 ≤ c.toNat ∧ c.toNat ≤ 70 then some (c.toNat - 55)
  else none

/-- JSON.stringify escaping of one character inside a string literal. -/
def escapeChar (c : Char) : Str :=
  if c = '"' then ['\\', '"']
  else if c = '\\' then ['\\', '\\']
  else if c.toNat = 8 then ['\\', 'b']
  else if c.toNat = 12 then ['\\', 'f']
  else if c.toNat = 10 then ['\\', 'n']
  else if c.toNat = 13 then ['\\', 'r']
  else if c.toNat = 9 then ['\\', 't']
  else if c.toNat < 32 then ['\\', 'u', '0', '0', hexDigit (c.toNat / 16), hexDigit (c.toNat % 16)]
  else [c]

/-- JSON.stringify escaping of a whole string body. -/
def escStr : Str → Str
  | [] => []
  | c :: rest => escapeChar c ++ escStr rest

/-- JSON.stringify of a string value, including the surrounding quotes. -/
def stringifyStr (s : Str) : Str :=
  '"' :: (escStr s ++ ['"'])

/-- JSON.parse handling of a single-character escape sequence. -/
def unescapeChar (e : Char) : Option Char :=
  if e = '"' then some '"'
  else if e = '\\' then some '\\'
  else if e = '/' then some '/'
  else if e = 'b' then some (Char.ofNat 8)
  else if e = 'f' then some (Char.ofNat 12)
  else if e = 'n' then some '\n'
  else if e = 'r' then some '\r'
  else if e = 't' then some '\t'
  else none

/-- JSON.parse of a string literal body after the opening quote: returns the
decoded string and the input remaining after the closing quote. Unescaped
control characters are rejected, as in JSON. -/
def parseStrAux : Str → Option (Str × Str)
  | [] => none
  | c :: rest =>
    if c = '"' then some ([], rest)
    else if c = '\\' then
      match rest with
      | 'u' :: h3 :: h2 :: h1 :: h0 :: rest2 =>
        match hexVal h3, hexVal h2, hexVal h1, hexVal h0 with
        | some d3, some d2, some d1, some d0 =>
          match parseStrAux rest2 with
          | some (s, r) => some (Char.ofNat (((d3 * 16 + d2) * 16 + d1) * 16 + d0) :: s, r)
          | none => none
        | _, _, _, _ => none
      | e :: rest2 =>
        match unescapeChar e with
        | some d =>
          match parseStrAux rest2 with
          | some (s, r) => some (d :: s, r)
          | none => none
        | none => none
      | [] => none
    else if c.toNat < 32 then none
    else
      match parseStrAux rest with
      | some (s, r) => some (c :: s, r)
      | none => none

/-- JSON.parse of a string literal, starting at the opening quote. -/
def parseStr (l : Str) : Option (Str × Str) :=
  match l with
  | c :: rest => if c = '"' then parseStrAux rest else none
  | [] => none

/-- JSON.parse of the members of a non-empty object whose values are all
strings (the JSON fragment JSON.stringify emits for the form data): parses
key:value pairs separated by commas up to the closing brace. Fuel bounds
the number of pairs; each pair consumes at least one input character, so
an initial fuel of input length + 1 never runs out. -/
def parsePairs : Nat → Str → Option (List (Str × Str) × Str)
  | 0, _ => none
  | fuel + 1, l =>
    match parseStr l with
    | none => none
    | some (k, r1) =>
      match r1 with
      | ':' :: r2 =>
        match parseStr r2 with
        | none => none
        | some (v, r3) =>
          match r3 with
          | '}' :: rest => some ([(k, v)], rest)
          | ',' :: r4 =>
            match parsePairs fuel r4 with
            | none => none
            | some (ps, rest) => some ((k, v) :: ps, rest)
          | _ => none
      | _ => none

/-- JSON.parse of a flat object of string fields, starting at the opening
brace: the JSON fragment reachable from the submit handler. -/
def parseJsonObj : Str → Option (List (Str × Str) × Str)
  | '{' :: '}' :: rest => some ([], rest)
  | '{' :: rest => parsePairs (rest.length + 1) rest
  | _ => none

/-- JSON.stringify of one key/value member. -/
def serPair (p : Str × Str) : Str :=
  stringifyStr p.1 ++ ':' :: stringifyStr p.2

/-- JSON.stringify of the members of an object, comma separated. -/
def serPairs : List (Str × Str) → Str
  | [] => []
  | [p] => serPair p
  | p :: p2 :: ps => serPair p ++ ',' :: serPairs (p2 :: ps)

/-- JSON.stringify of a flat object of string fields. -/
def stringifyObj (ps : List (Str × Str)) : Str :=
  '{' :: (serPairs ps ++ ['}'])

def keyTitle : Str := ['t', 'i', 't', 'l', 'e']

def keyAuthor : Str := ['a', 'u', 't', 'h', 'o', 'r']

def keyEmail : Str := ['e', 'm', 'a', 'i', 'l']

def keyContent : Str := ['c', 'o', 'n', 't', 'e', 'n', 't']

def keyCategory : Str := ['c', 'a', 't', 'e', 'g', 'o', 'r', 'y']

/-- The members of `formData` in insertion order, as JSON.stringify walks
them. -/
def fdPairs (fd : FormData) : List (Str × Str) :=
  [(keyTitle, fd.title), (keyAuthor, fd.author), (keyEmail, fd.email),
   (keyContent, fd.content), (keyCategory, fd.category)]

/-- `JSON.stringify(formData)`. -/
def stringifyFD (fd : FormData) : Str :=
  stringifyObj (fdPairs fd)

/-- Property access on a parsed JSON object (first binding wins). -/
def jLookup (ps : List (Str × Str)) (k : Str) : Str :=
  match ps.find? (fun p => decide (p.1 = k)) with
  | some p => p.2
  | none => []

/-- Reassemble the parsed object's named fields. -/
def toFormData (ps : List (Str × Str)) : FormData :=
  ⟨jLookup ps keyTitle, jLookup ps keyAuthor, jLookup ps keyEmail,
   jLookup ps keyContent, jLookup ps keyCategory⟩

/-- `{...parsedData, submissionDate: ...}`: spread plus one new field. -/
def mkUpdated (fd : FormData) (now : Str) : UpdatedParsed :=
  ⟨fd.title, fd.author, fd.email, fd.content, fd.category, now⟩

theorem hexVal_hexDigit (n : Nat) (h : n < 16) : hexVal (hexDigit n) = some n := by
  interval_cases n <;> decide

theorem parseStrAux_rt : ∀ (s rest : Str), parseStrAux (escStr s ++ '"' :: rest) = some (s, rest) := by
  intro s
  induction s with
  | nil =>
    intro rest
    rw [escStr, List.nil_append, parseStrAux.eq_def]
    simp
  | cons c s ih =>
    intro rest
    rw [escStr, List.append_assoc]
    by_cases h1 : c = '"'
    · subst h1
      rw [escapeChar, if_pos rfl, List.cons_append, List.cons_append, List.nil_append,
        parseStrAux.eq_def]
      simp [unescapeChar, ih]
    · by_cases h2 : c = '\\'
      · subst h2
        rw [escapeChar, if_neg (by decide), if_pos rfl, List.cons_append, List.cons_append,
          List.nil_append, parseStrAux.eq_def]
        simp [unescapeChar, ih]
      · by_cases h3 : c.toNat = 8
        · have hc : c = Char.ofNat 8 := charToNatInj _ _ (by rw [h3]; decide)
          subst hc
          rw [escapeChar, if_neg h1, if_neg h2, if_pos h3, List.cons_append, List.cons_append,
            List.nil_append, parseStrAux.eq_def]
          simp [unescapeChar, ih]
        · by_cases h4 : c.toNat = 12
          · have hc : c = Char.ofNat 12 := charToNatInj _ _ (by rw [h4]; decide)
            subst hc
            rw [escapeChar, if_neg h1, if_neg h2, if_neg h3, if_pos h4, List.cons_append,
              List.cons_append, List.nil_append, parseStrAux.eq_def]
            simp [unescapeChar, ih]
          · by_cases h5 : c.toNat = 10
            · have hc : c = '\n' := charToNatInj _ _ (by rw [h5]; decide)
              subst hc
              rw [escapeChar, if_neg h1, if_neg h2, if_neg h3, if_neg h4, if_pos h5,
                List.cons_append, List.cons_append, List.nil_append, parseStrAux.eq_def]
              simp [unescapeChar, ih]
            · by_cases h6 : c.toNat = 13
              · have hc : c = '\r' := charToNatInj _ _ (by rw [h6]; decide)
                subst hc
                rw [escapeChar, if_neg h1, if_neg h2, if_neg h3, if_neg h4, if_neg h5, if_pos h6,
                  List.cons_append, List.cons_append, List.nil_append, parseStrAux.eq_def]
                simp [unescapeChar, ih]
              · by_cases h7 : c.toNat = 9
                · have hc : c = '\t' := charToNatInj _ _ (by rw [h7]; decide)
                  subst hc
                  rw [escapeChar, if_neg h1, if_neg h2, if_neg h3, if_neg h4, if_neg h5, if_neg h6,
                    if_pos h7, List.cons_append, List.cons_append, List.nil_append,
                    parseStrAux.eq_def]
                  simp [unescapeChar, ih]
                · by_cases h8 : c.toNat < 32
                  · have hd1 : c.toNat / 16 < 16 := by omega
                    have hd0 : c.toNat % 16 < 16 := by omega
                    have hc : Char.ofNat (c.toNat / 16 * 16 + c.toNat % 16) = c := by
                      have hv : c.toNat / 16 * 16 + c.toNat % 16 = c.toNat := by omega
                      rw [hv]
                      exact charToNatInj _ _ (charOfNatToNat c.toNat (Or.inl (by omega)))
                    rw [escapeChar, if_neg h1, if_neg h2, if_neg h3, if_neg h4, if_neg h5,
                      if_neg h6, if_neg h7, if_pos h8]
                    simp only [List.cons_append, List.nil_append]
                    rw [parseStrAux.eq_def]
                    simp only [if_neg (by decide : ¬('\\' : Char) = '"'), if_pos rfl]
                    rw [hexVal_hexDigit _ hd1, hexVal_hexDigit _ hd0]
                    simp [hexVal, ih]
                    exact hc
                  · rw [escapeChar, if_neg h1, if_neg h2, if_neg h3, if_neg h4, if_neg h5,
                      if_neg h6, if_neg h7, if_neg h8, List.cons_append, List.nil_append,
                      parseStrAux.eq_def]
                    simp [h1, h2, h8, ih]

theorem parseStr_rt (s rest : Str) : parseStr (stringifyStr s ++ rest) = some (s, rest) := by
  simp only [stringifyStr, List.cons_append, List.append_assoc, List.cons_append, List.nil_append]
  rw [parseStr]
  simp [parseStrAux_rt]

theorem serPair_length (p : Str × Str) : 1 ≤ (serPair p).length := by
  simp [serPair, stringifyStr]

theorem serPairs_length_ge : ∀ ps : List (Str × Str), ps.length ≤ (serPairs ps).length
  | [] => by simp [serPairs]
  | [p] => by
    have := serPair_length p
    simp [serPairs]
    omega
  | p :: p2 :: ps => by
    have h1 := serPair_length p
    have h2 := serPairs_length_ge (p2 :: ps)
    rw [serPairs]
    simp only [List.length_append, List.length_cons] at h2 ⊢
    omega

theorem parsePairs_rt : ∀ (ps : List (Str × Str)) (fuel : Nat) (rest : Str),
    ps ≠ [] → ps.length ≤ fuel →
    parsePairs fuel (serPairs ps ++ '}' :: rest) = some (ps, rest) := by
  intro ps
  induction ps with
  | nil =>
    intro fuel rest h _
    exact absurd rfl h
  | cons p ps ih =>
    intro fuel rest _ hlen
    rcases fuel with _ | f
    · simp at hlen
    rcases ps with _ | ⟨p2, ps2⟩
    · rw [serPairs, serPair]
      simp only [List.append_assoc, List.cons_append]
      simp [parsePairs, parseStr_rt]
    · have hf : (p2 :: ps2).length ≤ f := by
        simp only [List.length_cons] at hlen ⊢
        omega
      have hih := ih f rest (by simp) hf
      rw [serPairs, serPair]
      simp only [List.append_assoc, List.cons_append]
      simp [parsePairs, parseStr_rt, hih]

theorem parseJsonObj_rt (ps : List (Str × Str)) (hne : ps ≠ []) :
    parseJsonObj (stringifyObj ps) = some (ps, []) := by
  rcases ps with _ | ⟨⟨k, v⟩, ps⟩
  · exact absurd rfl hne
  · obtain ⟨t, ht⟩ : ∃ t, serPairs ((k, v) :: ps) = '"' :: t := by
      rcases ps with _ | ⟨p2, ps2⟩
      · exact ⟨escStr k ++ ['"'] ++ (':' :: stringifyStr v), by simp [serPairs, serPair, stringifyStr]⟩
      · exact ⟨escStr k ++ ['"'] ++ (':' :: stringifyStr v) ++ (',' :: serPairs (p2 :: ps2)),
          by simp [serPairs, serPair, stringifyStr]⟩
    have ht2 : serPairs ((k, v) :: ps) ++ ['}'] = '"' :: (t ++ ['}']) := by
      rw [ht]
      simp
    rw [stringifyObj, ht2]
    show parsePairs (('"' :: (t ++ ['}'])).length + 1) ('"' :: (t ++ ['}'])) = some ((k, v) :: ps, [])
    rw [← ht2]
    have hfuel : ((k, v) :: ps).length ≤ ('"' :: (t ++ ['}'])).length + 1 := by
      have hg := serPairs_length_ge ((k, v) :: ps)
      have hl : (serPairs ((k, v) :: ps)).length = ('"' :: t).length := by rw [ht]
      simp only [List.length_cons, List.length_append] at hg hl ⊢
      omega
    have hfuel2 : ((k, v) :: ps).length ≤ (serPairs ((k, v) :: ps) ++ ['}']).length + 1 := by
      rw [ht2]
      exact hfuel
    exact parsePairs_rt ((k, v) :: ps) _ [] (by simp) hfuel2

theorem parse_stringifyFD (fd : FormData) :
    parseJsonObj (stringifyFD fd) = some (fdPairs fd, []) :=
  parseJsonObj_rt (fdPairs fd) (by simp [fdPairs])

theorem toFormData_fdPairs (fd : FormData) : toFormData (fdPairs fd) = fd := by
  simp [toFormData, fdPairs, jLookup, List.find?, keyTitle, keyAuthor, keyEmail,
    keyContent, keyCategory]

/-- The alert messages the script can raise. -/
inductive AlertMsg where
  | contentTooShort
  | mustAgreeTerms
  | published
deriving DecidableEq

/-- The document state read by the handlers: form field values and the
terms checkbox. -/
structure DomState where
  title : Str
  author : Str
  email : Str
  content : Str
  category : Str
  terms : Bool

/-- One console.log entry emitted by the submit handler. -/
inductive LogEntry where
  | jsonString (s : Str)
  | titleLog (s : Str)
  | emailLog (s : Str)
  | updatedObject (u : UpdatedParsed)
  | submissionCount (n : Nat)
deriving DecidableEq

/-- Page state the script mutates: the closure counter, the console log,
the inline error box, and the alerts raised so far. -/
structure AppState where
  count : Nat
  log : List LogEntry
  inlineError : Option AlertMsg
  alerts : List AlertMsg
deriving DecidableEq

/-- `validateForm` from script.js: checks trimmed content length, then the
terms checkbox; returns the boolean result together with the alert raised
on the failing check. -/
def validateFormRun (content : Str) (terms : Bool) : Bool × List AlertMsg :=
  if (trimWs content).length ≤ 25 then (false, [AlertMsg.contentTooShort])
  else if !terms then (false, [AlertMsg.mustAgreeTerms])
  else (true, [])

/-- The `blogForm` submit handler from script.js, as a transition on the
page state. On validation failure it sets the inline hint and returns
early; on success it collects the form data, stringifies it, re-parses it,
destructures title/email, spreads in `submissionDate`, bumps the closure
counter, and logs each step. JSON.parse cannot throw here (proved below),
so the unreachable parse-failure branch leaves the state unchanged. -/
def handleSubmit (dom : DomState) (now : Str) (st : AppState) : AppState :=
  let v := validateFormRun dom.content dom.terms
  if v.1 then
    let fd : FormData :=
      ⟨trimWs dom.title, trimWs dom.author, trimWs dom.email, dom.content, dom.category⟩
    let js := stringifyFD fd
    match parseJsonObj js with
    | some (pairs, _) =>
      let pd := toFormData pairs
      let up := mkUpdated pd now
      { count := st.count + 1,
        log := st.log ++ [LogEntry.jsonString js, LogEntry.titleLog pd.title,
          LogEntry.emailLog pd.email, LogEntry.updatedObject up,
          LogEntry.submissionCount (st.count + 1)],
        inlineError := none,
        alerts := st.alerts ++ v.2 ++ [AlertMsg.published] }
    | none => st
  else
    { st with
      alerts := st.alerts ++ v.2,
      inlineError :=
        if (trimWs dom.content).length ≤ 25 then some AlertMsg.contentTooShort
        else if !dom.terms then some AlertMsg.mustAgreeTerms
        else st.inlineError }

/-- A sequence of form submissions: the document state and clock value at
each submit event. -/
def runSubmits (events : List (DomState × Str)) (st : AppState) : AppState :=
  events.foldl (fun s e => handleSubmit e.1 e.2 s) st

/-! ## Spec-modelled metadata pipeline -/

/-- Modelled from the spec: the JSON values the Finalizer can emit and the
Validator inspects (strings, sequences, objects); the pipeline code is not
in the repository. -/
inductive Jval where
  | str (s : Str)
  | arr (xs : List Jval)
  | obj (fields : List (Str × Jval))

/-- Field access on a candidate JSON object (first binding wins). -/
def jGet (v : Jval) (k : Str) : Option Jval :=
  match v with
  | .obj fs =>
    match fs.find? (fun p => decide (p.1 = k)) with
    | some p => some p.2
    | none => none
  | _ => none

def keyTags : Str := ['t', 'a', 'g', 's']

def keySummary : Str := ['s', 'u', 'm', 'm', 'a', 'r', 'y']

/-- Modelled from the spec: StructuredMetadata `{tags, summary, sourceId}`;
the pipeline code is not in the repository. -/
structure StructuredMetadata where
  tags : List Str
  summary : Str
  sourceId : Str
deriving DecidableEq

/-- The offending field named by a validation failure. -/
inductive FieldName where
  | tags
  | summary
deriving DecidableEq

/-- The human-readable reasons a validation failure can carry. -/
inductive Reason where
  | tagsMissing
  | tagsNotSequence
  | tagCountNotThree
  | tagNotString
  | tagEmptyOrControl
  | duplicateTags
  | summaryMissing
  | summaryNotString
  | summaryEmpty
  | summaryTooLong
deriving DecidableEq

/-- Modelled from the spec: `ValidationResult = Valid(StructuredMetadata) |
Invalid(reason, offendingField)`; the pipeline code is not in the
repository. -/
inductive ValidationResult where
  | valid (m : StructuredMetadata)
  | invalid (reason : Reason) (offendingField : FieldName)
deriving DecidableEq

/-- Extract the elements of a tag sequence as strings; fails if any element
is not a string. -/
def asStrings : List Jval → Option (List Str)
  | [] => some []
  | .str s :: rest =>
    match asStrings rest with
    | some ss => some (s :: ss)
    | none => none
  | _ :: _ => none

/-- Check 2 of the Validator on one tag: after case-folding it is non-empty
and contains no control characters. -/
def tagOk (t : Str) : Bool :=
  !(foldCase t).isEmpty && !(foldCase t).any isCtrl

/-- The `tags` field of a candidate, provided it is a sequence. -/
def tagsOf (candidate : Jval) : Option (List Jval) :=
  match jGet candidate keyTags with
  | some (.arr xs) => some xs
  | _ => none

/-- The `summary` field of a candidate, provided it is a string. -/
def summaryOf (candidate : Jval) : Option Str :=
  match jGet candidate keySummary with
  | some (.str s) => some s
  | _ => none

/-- Validator checks 3 and 4 on the looked-up `summary` field value,
reached only after the tag checks pass: present, a non-empty string, word
count ≤ 25; then no duplicate tags after case-folding. -/
def checkSummaryVal (sourceId : Str) (tags : List Str) : Option Jval → ValidationResult
  | some (.str sum) =>
    if sum.isEmpty then .invalid .summaryEmpty .summary
    else if wordCount sum ≤ 25 then
      if (tags.map foldCase).Nodup then .valid ⟨tags, sum, sourceId⟩
      else .invalid .duplicateTags .tags
    else .invalid .summaryTooLong .summary
  | some _ => .invalid .summaryNotString .summary
  | none => .invalid .summaryMissing .summary

/-- Validator checks 3 and 4, reached only after the tag checks pass. -/
def checkSummary (sourceId : Str) (tags : List Str) (candidate : Jval) : ValidationResult :=
  checkSummaryVal sourceId tags (jGet candidate keySummary)

/-- Validator check 2 on the extracted tag strings: every tag case-folds
to a non-empty string without control characters. -/
def checkTagStrings (sourceId : Str) (candidate : Jval) : Option (List Str) → ValidationResult
  | none => .invalid .tagNotString .tags
  | some tags =>
    if tags.all tagOk then checkSummary sourceId tags candidate
    else .invalid .tagEmptyOrControl .tags

/-- Validator checks 1 (tail) and 2, reached when `tags` is a sequence:
exactly 3 elements, each a string that case-folds to a non-empty string
without control characters. -/
def checkTags (sourceId : Str) (xs : List Jval) (candidate : Jval) : ValidationResult :=
  if xs.length = 3 then checkTagStrings sourceId candidate (asStrings xs)
  else .invalid .tagCountNotThree .tags

/-- Modelled from the spec: §4.3 Validator — pure
`validate(candidate) -> ValidationResult`, checking in order (first failure
wins): (1) `tags` present, a sequence, exactly 3 elements; (2) each tag
case-folded non-empty without control characters; (3) `summary` present,
non-empty, word count ≤ 25; (4) no duplicate tags after case-folding.
Never partially accepts; the accepted metadata carries the candidate's
fields unchanged. The pipeline code is not in the repository. -/
def validate (sourceId : Str) (candidate : Jval) : ValidationResult :=
  match jGet candidate keyTags with
  | none => .invalid .tagsMissing .tags
  | some (.arr xs) => checkTags sourceId xs candidate
  | some _ => .invalid .tagsNotSequence .tags

/-- Modelled from the spec: RawSubmission
`{id, title, author, email, content, category, receivedAt}`; the pipeline
code is not in the repository. -/
structure RawSubmission where
  id : Str
  title : Str
  author : Str
  email : Str
  content : Str
  category : Str
  receivedAt : Str
deriving DecidableEq

/-- Modelled from the spec: NormalizedRecord — RawSubmission fields plus
StructuredMetadata plus `loadedAt`; the pipeline code is not in the
repository. -/
structure NormalizedRecord where
  sourceId : Str
  title : Str
  author : Str
  email : Str
  content : Str
  category : Str
  receivedAt : Str
  tags : List Str
  summary : Str
  loadedAt : Nat
deriving DecidableEq

/-- Modelled from the spec: §4.4 Normalizer — trims and collapses internal
whitespace in title/author/content, lower-cases and trims each tag, trims
the summary, leaves everything else unchanged. The pipeline code is not in
the repository. -/
def normalizeRecord (r : NormalizedRecord) : NormalizedRecord :=
  { r with
    title := collapseWs r.title,
    author := collapseWs r.author,
    content := collapseWs r.content,
    tags := r.tags.map tagNorm,
    summary := trimWs r.summary }

/-- Assemble and normalize the record persisted for one accepted
submission. -/
def mkNormalizedRecord (raw : RawSubmission) (m : StructuredMetadata) (now : Nat) :
    NormalizedRecord :=
  normalizeRecord
    ⟨raw.id, raw.title, raw.author, raw.email, raw.content, raw.category, raw.receivedAt,
      m.tags, m.summary, now⟩

/-- Modelled from the spec: §4.6 — two records carry the same content when
all fields except `loadedAt` agree. -/
def sameContent (a b : NormalizedRecord) : Prop :=
  a.sourceId = b.sourceId ∧ a.title = b.title ∧ a.author = b.author ∧ a.email = b.email ∧
  a.content = b.content ∧ a.category = b.category ∧ a.receivedAt = b.receivedAt ∧
  a.tags = b.tags ∧ a.summary = b.summary

instance (a b : NormalizedRecord) : Decidable (sameContent a b) := by
  unfold sameContent
  infer_instance

/-- Modelled from the spec: §4.6 Store Writer — idempotent upsert keyed by
`sourceId`: identical content is a no-op, different content overwrites the
prior row and refreshes `loadedAt`, an unseen key appends a row. The
pipeline code is not in the repository. -/
def upsert (now : Nat) (r : NormalizedRecord) (store : List NormalizedRecord) :
    List NormalizedRecord :=
  match store.find? (fun row => decide (row.sourceId = r.sourceId)) with
  | none => store ++ [{ r with loadedAt := now }]
  | some old =>
    if sameContent old r then store
    else store.map (fun row => if row.sourceId = r.sourceId then { r with loadedAt := now } else row)

/-- The three fixed agent roles. -/
inductive Role where
  | planner
  | reviewer
  | finalizer
deriving DecidableEq

/-- Typed stage failures surfaced by the Agent Stage Runner. -/
inductive FailKind where
  | transportError
  | malformedOutput
deriving DecidableEq

/-- Result of running one agent stage. -/
inductive StageResult where
  | ok (out : Jval)
  | fail (kind : FailKind)

/-- A terminal per-record failure: a stage failure or a validation
rejection. -/
inductive OrchFailure where
  | stage (k : FailKind)
  | validation (r : Reason)
deriving DecidableEq

/-- Modelled from the spec: AgentContext — the original submission plus the
accumulated stage outputs, and the rejection reasons carried as guidance
into a retry; the pipeline code is not in the repository. -/
structure AgentContext where
  submission : RawSubmission
  guidance : List OrchFailure
  plannerOutput : Option Jval
  reviewerOutput : Option Jval
  finalizerOutput : Option Jval

/-- A fresh context for one orchestrator pass, carrying only the submission
and the accumulated guidance. -/
def freshCtx (raw : RawSubmission) (guidance : List OrchFailure) : AgentContext :=
  ⟨raw, guidance, none, none, none⟩

/-- Modelled from the spec: §4.2 — one full Planning → Reviewing →
Finalizing → Validating pass, threading each stage's output into the
context; any stage failure or validation failure aborts the pass. The
pipeline code is not in the repository. -/
def runSequence (stageRun : Role → AgentContext → StageResult)
    (validator : Str → Jval → ValidationResult) (ctx : AgentContext) :
    Except OrchFailure StructuredMetadata :=
  match stageRun .planner ctx with
  | .fail k => .error (.stage k)
  | .ok p =>
    let ctx1 := { ctx with plannerOutput := some p }
    match stageRun .reviewer ctx1 with
    | .fail k => .error (.stage k)
    | .ok rv =>
      let ctx2 := { ctx1 with reviewerOutput := some rv }
      match stageRun .finalizer ctx2 with
      | .fail k => .error (.stage k)
      | .ok fin =>
        let ctx3 := { ctx2 with finalizerOutput := some fin }
        match validator ctx3.submission.id fin with
        | .valid m => .ok m
        | .invalid reason _ => .error (.validation reason)

/-- Outcome of one orchestrator run, carrying the number of full stage
sequences attempted. -/
inductive OrchResult where
  | accepted (m : StructuredMetadata) (attempts : Nat)
  | rejected (f : OrchFailure) (attempts : Nat)

/-- Modelled from the spec: §4.2 Workflow Orchestrator retry loop — on a
failed pass, restart at Planning with fresh context extended by the
rejection reason while budget remains, else terminate Rejected. The
pipeline code is not in the repository. -/
def orchLoop (stageRun : Role → AgentContext → StageResult)
    (validator : Str → Jval → ValidationResult) (raw : RawSubmission) :
    Nat → List OrchFailure → Nat → OrchResult
  | budget, guidance, attempts =>
    match runSequence stageRun validator (freshCtx raw guidance) with
    | .ok m => .accepted m (attempts + 1)
    | .error f =>
      match budget with
      | 0 => .rejected f (attempts + 1)
      | b + 1 => orchLoop stageRun validator raw b (guidance ++ [f]) (attempts + 1)

/-- Modelled from the spec: the Workflow Orchestrator entry point, with the
configured maximum number of retries (default 2). The pipeline code is not
in the repository. -/
def orchestrate (stageRun : Role → AgentContext → StageResult)
    (validator : Str → Jval → ValidationResult) (raw : RawSubmission)
    (maxRetries : Nat := 2) : OrchResult :=
  orchLoop stageRun validator raw maxRetries [] 0

/-- Result of one external inference call: a raw response or a transport
failure (timeout or malformed transport response). -/
inductive CallResult where
  | response (raw : Str)
  | transportFail

/-- Outcome of the Agent Stage Runner: parsed structured output or a typed
failure. -/
inductive StageOutcome where
  | ok (out : Jval)
  | fail (kind : FailKind)

/-- Strict parsing of one inference response: parse failure is
MalformedOutput and is not retried at this layer. -/
def parseOutcome (parse : Str → Option Jval) (raw : Str) (attempt : Nat) (delays : List Nat) :
    StageOutcome × Nat × List Nat :=
  match parse raw with
  | some out => (.ok out, attempt + 1, delays)
  | none => (.fail .malformedOutput, attempt + 1, delays)

/-- Modelled from the spec: §4.1 Agent Stage Runner transport loop — `call
i` is the outcome of the i-th external inference attempt; on transport
failure retry up to `remaining` additional attempts, waiting
`base * 2 ^ attempt` before the next one (exponential backoff); on a
response, strict parsing. Returns the outcome, the number of calls made,
and the backoff waits used. The pipeline code is not in the repository. -/
def stageGo (call : Nat → CallResult) (parse : Str → Option Jval) (base : Nat) :
    Nat → Nat → List Nat → StageOutcome × Nat × List Nat
  | attempt, 0, delays =>
    match call attempt with
    | .response raw => parseOutcome parse raw attempt delays
    | .transportFail => (.fail .transportError, attempt + 1, delays)
  | attempt, r + 1, delays =>
    match call attempt with
    | .response raw => parseOutcome parse raw attempt delays
    | .transportFail => stageGo call parse base (attempt + 1) r (delays ++ [base * 2 ^ attempt])

/-- Modelled from the spec: the Agent Stage Runner's call discipline with
the default bound of 2 additional attempts. The pipeline code is not in
the repository. -/
def runStage (call : Nat → CallResult) (parse : Str → Option Jval) (base : Nat) :
    StageOutcome × Nat × List Nat :=
  stageGo call parse base 0 2 []

/-- Why one record of a run was rejected. -/
inductive RejectKind where
  | malformedInput
  | orchFailure (f : OrchFailure)
  | storeRecordError
deriving DecidableEq

/-- Modelled from the spec: RunSummary — counts of extracted, transformed,
loaded and rejected records plus the reject list; the pipeline code is not
in the repository. -/
structure RunSummary where
  extracted : Nat
  transformed : Nat
  loaded : Nat
  rejected : Nat
  rejects : List (Str × RejectKind)
deriving DecidableEq

/-- Record one rejection in the run summary. -/
def addReject (summ : RunSummary) (sourceId : Str) (k : RejectKind) : RunSummary :=
  { summ with rejected := summ.rejected + 1, rejects := summ.rejects ++ [(sourceId, k)] }

/-- Result of one Store Writer write as seen by the ETL Driver: success, a
per-record store error, or an unrecoverable connectivity-level error. -/
inductive StoreResult where
  | ok (st : List NormalizedRecord)
  | recordError
  | fatal

/-- Modelled from the spec: §4.5 ETL Driver — processes the line-delimited
feed one record at a time: malformed lines are counted as rejected with
reason MalformedInput and the run continues; orchestrator rejections and
per-record store errors are recorded and the run continues; only a
connectivity-level store error aborts the run. The pipeline code is not in
the repository. -/
def etlRun (parseLine : Str → Option RawSubmission) (orch : RawSubmission → OrchResult)
    (up : NormalizedRecord → List NormalizedRecord → StoreResult) (now : Nat) :
    List Str → List NormalizedRecord → RunSummary →
    Except Unit (RunSummary × List NormalizedRecord)
  | [], st, summ => .ok (summ, st)
  | line :: rest, st, summ =>
    match parseLine line with
    | none => etlRun parseLine orch up now rest st (addReject summ [] .malformedInput)
    | some raw =>
      let summ1 := { summ with extracted := summ.extracted + 1 }
      match orch raw with
      | .rejected f _ => etlRun parseLine orch up now rest st (addReject summ1 raw.id (.orchFailure f))
      | .accepted m _ =>
        let rec0 := mkNormalizedRecord raw m now
        let summ2 := { summ1 with transformed := summ1.transformed + 1 }
        match up rec0 st with
        | .fatal => .error ()
        | .recordError => etlRun parseLine orch up now rest st (addReject summ2 raw.id .storeRecordError)
        | .ok st2 => etlRun parseLine orch up now rest st2 { summ2 with loaded := summ2.loaded + 1 }

/-- Number of MalformedInput rejections recorded in a summary. -/
def malformedCount (summ : RunSummary) : Nat :=
  summ.rejects.countP (fun pr => decide (pr.2 = RejectKind.malformedInput))

/-! ## Claim theorems -/

/-- C2: `validateForm` returns true exactly when the trimmed content is
longer than 25 characters and the terms checkbox is checked; when the
trimmed content has length at most 25 it returns false on the content
check alone — only the content alert fires, whatever the checkbox says,
so the terms checkbox is never consulted. -/
theorem c2_validateForm (content : Str) (terms : Bool) :
    ((validateFormRun content terms).1 = true ↔
      25 < (trimWs content).length ∧ terms = true) ∧
    ((trimWs content).length ≤ 25 →
      validateFormRun content terms = (false, [AlertMsg.contentTooShort])) := by
  unfold validateFormRun
  by_cases h : (trimWs content).length ≤ 25
  · constructor
    · rw [if_pos h]
      constructor
      · intro hf
        simp at hf
      · intro ⟨h1, _⟩
        omega
    · intro _
      rw [if_pos h]
  · constructor
    · rw [if_neg h]
      cases terms <;> simp <;> omega
    · intro hc
      exact absurd hc h

/-- C2 witness: with content of trimmed length 1 and the box checked,
validation fails with only the content alert. -/
theorem c2_validateForm_witness :
    (trimWs [' ', 'a']).length ≤ 25 ∧
    validateFormRun [' ', 'a'] true = (false, [AlertMsg.contentTooShort]) :=
  ⟨by decide, (c2_validateForm [' ', 'a'] true).2 (by decide)⟩

/-- C10: JSON.stringify of the collected form data followed by JSON.parse
is a round-trip identity — the parsed object consists of exactly the five
string fields of `formData` with equal values — and the spread-built
`updatedParsed` preserves all five fields and only adds
`submissionDate`. -/
theorem c10_json_roundtrip (fd : FormData) (now : Str) :
    parseJsonObj (stringifyFD fd) = some (fdPairs fd, []) ∧
    toFormData (fdPairs fd) = fd ∧
    (mkUpdated fd now).title = fd.title ∧
    (mkUpdated fd now).author = fd.author ∧
    (mkUpdated fd now).email = fd.email ∧
    (mkUpdated fd now).content = fd.content ∧
    (mkUpdated fd now).category = fd.category ∧
    (mkUpdated fd now).submissionDate = now :=
  ⟨parse_stringifyFD fd, toFormData_fdPairs fd, rfl, rfl, rfl, rfl, rfl, rfl⟩

/-- C9: a failed validation leaves the submit handler's state untouched —
no JSON string is built or logged and the closure counter is not invoked —
while a successful validation invokes the counter exactly once; hence over
any event sequence the counter grows by exactly the number of submissions
that validated. -/
theorem c9_submission_counter :
    (∀ (dom : DomState) (now : Str) (st : AppState),
      (validateFormRun dom.content dom.terms).1 = false →
      (handleSubmit dom now st).count = st.count ∧ (handleSubmit dom now st).log = st.log) ∧
    (∀ (dom : DomState) (now : Str) (st : AppState),
      (validateFormRun dom.content dom.terms).1 = true →
      (handleSubmit dom now st).count = st.count + 1) ∧
    (∀ (events : List (DomState × Str)) (st0 : AppState),
      (runSubmits events st0).count =
        st0.count + events.countP (fun e => (validateFormRun e.1.content e.1.terms).1)) := by
  have hfalse : ∀ (dom : DomState) (now : Str) (st : AppState),
      (validateFormRun dom.content dom.terms).1 = false →
      (handleSubmit dom now st).count = st.count ∧ (handleSubmit dom now st).log = st.log := by
    intro dom now st h
    rw [handleSubmit]
    simp only [h]
    constructor <;> rfl
  have htrue : ∀ (dom : DomState) (now : Str) (st : AppState),
      (validateFormRun dom.content dom.terms).1 = true →
      (handleSubmit dom now st).count = st.count + 1 := by
    intro dom now st h
    rw [handleSubmit]
    simp only [h, if_true]
    rw [parse_stringifyFD]
  refine ⟨hfalse, htrue, ?_⟩
  intro events
  induction events with
  | nil =>
    intro st0
    simp [runSubmits]
  | cons e es ih =>
    intro st0
    have hstep : runSubmits (e :: es) st0 = runSubmits es (handleSubmit e.1 e.2 st0) := rfl
    rw [hstep, ih, List.countP_cons]
    rcases hv : (validateFormRun e.1.content e.1.terms).1 with _ | _
    · rw [(hfalse e.1 e.2 st0 hv).1]
      simp [hv]
    · rw [htrue e.1 e.2 st0 hv]
      simp [hv]
      omega

/-- C9 witness: an unchecked terms box leaves count and log unchanged. -/
theorem c9_submission_counter_witness :
    (validateFormRun [] false).1 = false ∧
    (handleSubmit ⟨[], [], [], [], [], false⟩ [] ⟨0, [], none, []⟩).count = 0 ∧
    (handleSubmit ⟨[], [], [], [], [], false⟩ [] ⟨0, [], none, []⟩).log = [] :=
  ⟨by decide,
    (c9_submission_counter.1 ⟨[], [], [], [], [], false⟩ [] ⟨0, [], none, []⟩ (by decide)).1,
    (c9_submission_counter.1 ⟨[], [], [], [], [], false⟩ [] ⟨0, [], none, []⟩ (by decide)).2⟩

/-- C4: the Normalizer is idempotent — re-normalizing a normalized record
is a no-op; in particular lower-casing and trimming a tag twice equals
doing it once. -/
theorem c4_normalizer_idempotent :
    (∀ r : NormalizedRecord, normalizeRecord (normalizeRecord r) = normalizeRecord r) ∧
    (∀ t : Str, tagNorm (tagNorm t) = tagNorm t) := by
  constructor
  · intro r
    simp only [normalizeRecord, collapseWs_idem, trimWs_idem, List.map_map]
    congr 1
    apply List.map_congr_left
    intro t _
    exact tagNorm_idem t
  · exact tagNorm_idem

theorem find_map_key (key : Str) (x : NormalizedRecord) (hx : x.sourceId = key) :
    ∀ (s : List NormalizedRecord) (old : NormalizedRecord),
      s.find? (fun row => decide (row.sourceId = key)) = some old →
      (s.map (fun row => if row.sourceId = key then x else row)).find?
        (fun row => decide (row.sourceId = key)) = some x := by
  intro s
  induction s with
  | nil =>
    intro old h
    simp at h
  | cons a t ih =>
    intro old h
    by_cases ha : a.sourceId = key
    · rw [List.map_cons, if_pos ha]
      rw [List.find?_cons_of_pos _ (by simp [hx])]
    · rw [List.find?_cons_of_neg _ (by simp [ha])] at h
      rw [List.map_cons, if_neg ha, List.find?_cons_of_neg _ (by simp [ha])]
      exact ih old h

theorem sameContent_upsert_self (r : NormalizedRecord) (t : Nat) :
    sameContent { r with loadedAt := t } r :=
  ⟨rfl, rfl, rfl, rfl, rfl, rfl, rfl, rfl, rfl⟩

theorem upsert_none (now : Nat) (r : NormalizedRecord) (s : List NormalizedRecord)
    (h : s.find? (fun row => decide (row.sourceId = r.sourceId)) = none) :
    upsert now r s = s ++ [{ r with loadedAt := now }] := by
  rw [upsert, h]

theorem upsert_same (now : Nat) (r : NormalizedRecord) (s : List NormalizedRecord)
    (old : NormalizedRecord)
    (h : s.find? (fun row => decide (row.sourceId = r.sourceId)) = some old)
    (hsc : sameContent old r) : upsert now r s = s := by
  rw [upsert, h]
  exact if_pos hsc

theorem upsert_diff (now : Nat) (r : NormalizedRecord) (s : List NormalizedRecord)
    (old : NormalizedRecord)
    (h : s.find? (fun row => decide (row.sourceId = r.sourceId)) = some old)
    (hsc : ¬sameContent old r) :
    upsert now r s = s.map
      (fun row => if row.sourceId = r.sourceId then { r with loadedAt := now } else row) := by
  rw [upsert, h]
  exact if_neg hsc

/-- C5: the Store Writer upsert is idempotent under identical input —
re-upserting the same record is a no-op on the store, the store keeps
exactly one row for that `sourceId` — while upserting the same `sourceId`
with different content overwrites the stored row with the new record and
a fresh `loadedAt` (last-write-wins). -/
theorem c5_store_upsert (t1 t2 : Nat) (r r2 : NormalizedRecord) (s : List NormalizedRecord)
    (hwf : s.countP (fun row => decide (row.sourceId = r.sourceId)) ≤ 1) :
    upsert t2 r (upsert t1 r s) = upsert t1 r s ∧
    (upsert t1 r s).countP (fun row => decide (row.sourceId = r.sourceId)) = 1 ∧
    (∀ old, s.find? (fun row => decide (row.sourceId = r2.sourceId)) = some old →
      ¬sameContent old r2 →
      (upsert t1 r2 s).find? (fun row => decide (row.sourceId = r2.sourceId)) =
        some { r2 with loadedAt := t1 }) := by
  refine ⟨?_, ?_, ?_⟩
  · rcases hfind : s.find? (fun row => decide (row.sourceId = r.sourceId)) with _ | old
    · have hfind2 : (s ++ [{ r with loadedAt := t1 }]).find?
          (fun row => decide (row.sourceId = r.sourceId)) = some { r with loadedAt := t1 } := by
        rw [List.find?_append, hfind]
        simp
      rw [upsert_none t1 r s hfind,
        upsert_same t2 r _ _ hfind2 (sameContent_upsert_self r t1)]
    · by_cases hsc : sameContent old r
      · rw [upsert_same t1 r s old hfind hsc, upsert_same t2 r s old hfind hsc]
      · rw [upsert_diff t1 r s old hfind hsc,
          upsert_same t2 r _ _
            (find_map_key r.sourceId { r with loadedAt := t1 } rfl s old hfind)
            (sameContent_upsert_self r t1)]
  · rcases hfind : s.find? (fun row => decide (row.sourceId = r.sourceId)) with _ | old
    · rw [upsert_none t1 r s hfind, List.countP_append]
      have h0 : s.countP (fun row => decide (row.sourceId = r.sourceId)) = 0 := by
        rw [List.countP_eq_zero]
        intro a ha
        have := List.find?_eq_none.mp hfind a ha
        simpa using this
      rw [h0]
      simp
    · have hmem := List.mem_of_find?_eq_some hfind
      have hp := List.find?_some hfind
      have h1 : 1 ≤ s.countP (fun row => decide (row.sourceId = r.sourceId)) := by
        by_contra hlt
        have h0 : s.countP (fun row => decide (row.sourceId = r.sourceId)) = 0 := by omega
        exact absurd hp (List.countP_eq_zero.mp h0 old hmem)
      by_cases hsc : sameContent old r
      · rw [upsert_same t1 r s old hfind hsc]
        omega
      · rw [upsert_diff t1 r s old hfind hsc]
        have hmap : (s.map (fun row =>
            if row.sourceId = r.sourceId then { r with loadedAt := t1 } else row)).countP
            (fun row => decide (row.sourceId = r.sourceId)) =
            s.countP (fun row => decide (row.sourceId = r.sourceId)) := by
          rw [List.countP_map]
          apply List.countP_congr
          intro a _
          show decide ((if a.sourceId = r.sourceId then { r with loadedAt := t1 } else a).sourceId
            = r.sourceId) = true ↔ decide (a.sourceId = r.sourceId) = true
          by_cases haa : a.sourceId = r.sourceId
          · simp [haa]
          · simp [haa]
        omega
  · intro old h hns
    rw [upsert_diff t1 r2 s old h hns]
    exact find_map_key r2.sourceId { r2 with loadedAt := t1 } rfl s old h

/-- C5 witness: two upserts of one record into the empty store equal one
upsert. -/
theorem c5_store_upsert_witness :
    ([] : List NormalizedRecord).countP
      (fun row => decide (row.sourceId = (['a'] : Str))) ≤ 1 ∧
    upsert 1 ⟨['a'], [], [], [], [], [], [], [], [], 0⟩
        (upsert 0 ⟨['a'], [], [], [], [], [], [], [], [], 0⟩ []) =
      upsert 0 ⟨['a'], [], [], [], [], [], [], [], [], 0⟩ [] :=
  ⟨by decide, (c5_store_upsert 0 1 ⟨['a'], [], [], [], [], [], [], [], [], 0⟩
    ⟨['a'], [], [], [], [], [], [], [], [], 0⟩ [] (by decide)).1⟩

theorem runSequence_invalid (stageRun : Role → AgentContext → StageResult)
    (validator : Str → Jval → ValidationResult)
    (hs : ∀ role ctx, ∃ out, stageRun role ctx = .ok out)
    (hv : ∀ sid c, ∃ reason field, validator sid c = .invalid reason field) :
    ∀ ctx, ∃ f, runSequence stageRun validator ctx = .error f := by
  intro ctx
  obtain ⟨p, hp⟩ := hs .planner ctx
  obtain ⟨rv, hrv⟩ := hs .reviewer { ctx with plannerOutput := some p }
  obtain ⟨fin, hfin⟩ := hs .finalizer
    { ctx with plannerOutput := some p, reviewerOutput := some rv }
  obtain ⟨reason, field, hval⟩ := hv ctx.submission.id fin
  refine ⟨.validation reason, ?_⟩
  rw [runSequence, hp]
  simp only []
  rw [hrv]
  simp only []
  rw [hfin]
  simp only []
  rw [hval]

/-- C3: with a Validator that rejects every candidate (and agent stages
that always produce output), the Orchestrator terminates in `Rejected`
after exactly `maxRetries + 1` full Planning-through-Validating stage
sequences — never more. -/
theorem c3_orchestrator_budget (stageRun : Role → AgentContext → StageResult)
    (validator : Str → Jval → ValidationResult) (raw : RawSubmission) (maxRetries : Nat)
    (hs : ∀ role ctx, ∃ out, stageRun role ctx = .ok out)
    (hv : ∀ sid c, ∃ reason field, validator sid c = .invalid reason field) :
    ∃ f, orchestrate stageRun validator raw maxRetries = .rejected f (maxRetries + 1) := by
  have hseq := runSequence_invalid stageRun validator hs hv
  have hloop : ∀ (b : Nat) (g : List OrchFailure) (a : Nat),
      ∃ f, orchLoop stageRun validator raw b g a = .rejected f (a + b + 1) := by
    intro b
    induction b with
    | zero =>
      intro g a
      obtain ⟨f, hf⟩ := hseq (freshCtx raw g)
      exact ⟨f, by rw [orchLoop, hf]⟩
    | succ n ih =>
      intro g a
      obtain ⟨f, hf⟩ := hseq (freshCtx raw g)
      obtain ⟨f2, hf2⟩ := ih (g ++ [f]) (a + 1)
      refine ⟨f2, ?_⟩
      rw [orchLoop, hf]
      simp only []
      have harith : a + 1 + n + 1 = a + (n + 1) + 1 := by omega
      rw [harith] at hf2
      exact hf2
  obtain ⟨f, hf⟩ := hloop maxRetries [] 0
  refine ⟨f, ?_⟩
  rw [orchestrate, hf]
  simp

/-- C3 witness: with the default budget of 2 retries and an
always-invalid validator, the orchestrator rejects after exactly 3 stage
sequences. -/
theorem c3_orchestrator_budget_witness :
    ∃ f, orchestrate (fun _ _ => .ok (Jval.str []))
      (fun _ _ => .invalid .tagCountNotThree .tags)
      ⟨['i'], [], [], [], [], [], []⟩ 2 = .rejected f 3 :=
  c3_orchestrator_budget (fun _ _ => .ok (Jval.str []))
    (fun _ _ => .invalid .tagCountNotThree .tags) ⟨['i'], [], [], [], [], [], []⟩ 2
    (fun _ _ => ⟨Jval.str [], rfl⟩) (fun _ _ => ⟨.tagCountNotThree, .tags, rfl⟩)

theorem stageGo_response (call : Nat → CallResult) (parse : Str → Option Jval) (base : Nat)
    (a r : Nat) (d : List Nat) (raw : Str) (ha : call a = .response raw) :
    stageGo call parse base a r d = parseOutcome parse raw a d := by
  rcases r with _ | r
  · rw [stageGo, ha]
  · rw [stageGo, ha]

theorem stageGo_fail_zero (call : Nat → CallResult) (parse : Str → Option Jval) (base : Nat)
    (a : Nat) (d : List Nat) (ha : call a = .transportFail) :
    stageGo call parse base a 0 d = (.fail .transportError, a + 1, d) := by
  rw [stageGo, ha]

theorem stageGo_fail_succ (call : Nat → CallResult) (parse : Str → Option Jval) (base : Nat)
    (a r : Nat) (d : List Nat) (ha : call a = .transportFail) :
    stageGo call parse base a (r + 1) d =
      stageGo call parse base (a + 1) r (d ++ [base * 2 ^ a]) := by
  rw [stageGo, ha]

/-- C8: the Agent Stage Runner makes at most 2 additional attempts after a
transport failure, waiting `base * 2^i` before retry i (exponential
backoff), and returns a TransportError stage failure exactly when all
three calls fail in transport; a response whose parse fails yields a
MalformedOutput stage failure immediately, with no further call at this
layer. -/
theorem c8_stage_runner (call : Nat → CallResult) (parse : Str → Option Jval) (base : Nat) :
    ((runStage call parse base).1 = .fail .transportError ↔
      ∀ i < 3, call i = .transportFail) ∧
    ((∀ i < 3, call i = .transportFail) →
      runStage call parse base = (.fail .transportError, 3, [base * 2 ^ 0, base * 2 ^ 1])) ∧
    (∀ k raw, k < 3 → (∀ i < k, call i = .transportFail) → call k = .response raw →
      parse raw = none →
      runStage call parse base =
        (.fail .malformedOutput, k + 1, (List.range k).map (fun i => base * 2 ^ i))) := by
  have hall : (∀ i < 3, call i = .transportFail) →
      runStage call parse base = (.fail .transportError, 3, [base * 2 ^ 0, base * 2 ^ 1]) := by
    intro h
    rw [runStage]
    rw [stageGo_fail_succ call parse base 0 1 [] (h 0 (by omega))]
    rw [stageGo_fail_succ call parse base 1 0 ([] ++ [base * 2 ^ 0]) (h 1 (by omega))]
    rw [stageGo_fail_zero call parse base 2 _ (h 2 (by omega))]
    simp
  have hmal : ∀ (k : Nat) (raw : Str), k < 3 → (∀ i < k, call i = .transportFail) →
      call k = .response raw → parse raw = none →
      runStage call parse base =
        (.fail .malformedOutput, k + 1, (List.range k).map (fun i => base * 2 ^ i)) := by
    intro k raw hk hprev hresp hparse
    match k, hk with
    | 0, _ =>
      rw [runStage, stageGo_response call parse base 0 2 [] raw hresp, parseOutcome, hparse]
      simp
    | 1, _ =>
      rw [runStage]
      rw [stageGo_fail_succ call parse base 0 1 [] (hprev 0 (by omega))]
      rw [stageGo_response call parse base 1 1 ([] ++ [base * 2 ^ 0]) raw hresp,
        parseOutcome, hparse]
      simp [List.range_succ]
    | 2, _ =>
      rw [runStage]
      rw [stageGo_fail_succ call parse base 0 1 [] (hprev 0 (by omega))]
      rw [stageGo_fail_succ call parse base 1 0 ([] ++ [base * 2 ^ 0]) (hprev 1 (by omega))]
      rw [stageGo_response call parse base 2 0 _ raw hresp, parseOutcome, hparse]
      simp [List.range_succ]
  refine ⟨⟨?_, fun h => by rw [hall h]⟩, hall, hmal⟩
  intro hres
  intro i hi
  by_contra hni
  rcases h0 : call 0 with raw0 | _
  · rw [runStage, stageGo_response call parse base 0 2 [] raw0 h0, parseOutcome] at hres
    rcases hp : parse raw0 with _ | out <;> rw [hp] at hres <;> simp at hres
  · rcases h1 : call 1 with raw1 | _
    · rw [runStage, stageGo_fail_succ call parse base 0 1 [] h0,
        stageGo_response call parse base 1 1 _ raw1 h1, parseOutcome] at hres
      rcases hp : parse raw1 with _ | out <;> rw [hp] at hres <;> simp at hres
    · rcases h2 : call 2 with raw2 | _
      · rw [runStage, stageGo_fail_succ call parse base 0 1 [] h0,
          stageGo_fail_succ call parse base 1 0 _ h1,
          stageGo_response call parse base 2 0 _ raw2 h2, parseOutcome] at hres
        rcases hp : parse raw2 with _ | out <;> rw [hp] at hres <;> simp at hres
      · apply hni
        interval_cases i
        · exact h0
        · exact h1
        · exact h2

/-- C8 witness: with every call failing in transport, the runner makes
exactly 3 calls, backs off 5 then 10, and fails with TransportError. -/
theorem c8_stage_runner_witness :
    runStage (fun _ => CallResult.transportFail) (fun _ => none) 5 =
      (.fail .transportError, 3, [5 * 2 ^ 0, 5 * 2 ^ 1]) :=
  (c8_stage_runner (fun _ => CallResult.transportFail) (fun _ => none) 5).2.1
    (fun i _ => rfl)

theorem malformedCount_addReject (summ : RunSummary) (sid : Str) (k : RejectKind) :
    malformedCount (addReject summ sid k) =
      malformedCount summ + (if k = RejectKind.malformedInput then 1 else 0) := by
  simp only [malformedCount, addReject, List.countP_append]
  by_cases hk : k = RejectKind.malformedInput
  · simp [hk, List.countP_cons]
  · simp [hk, List.countP_cons]

theorem malformedCount_extracted (summ : RunSummary) (n : Nat) :
    malformedCount { summ with extracted := n } = malformedCount summ := rfl

theorem etlRun_nil (parseLine : Str → Option RawSubmission) (orch : RawSubmission → OrchResult)
    (up : NormalizedRecord → List NormalizedRecord → StoreResult) (now : Nat)
    (st : List NormalizedRecord) (summ : RunSummary) :
    etlRun parseLine orch up now [] st summ = .ok (summ, st) := by
  rw [etlRun]

theorem etlRun_malformed (parseLine : Str → Option RawSubmission)
    (orch : RawSubmission → OrchResult)
    (up : NormalizedRecord → List NormalizedRecord → StoreResult) (now : Nat)
    (line : Str) (rest : List Str) (st : List NormalizedRecord) (summ : RunSummary)
    (hp : parseLine line = none) :
    etlRun parseLine orch up now (line :: rest) st summ =
      etlRun parseLine orch up now rest st (addReject summ [] .malformedInput) := by
  rw [etlRun, hp]

theorem etlRun_rejected (parseLine : Str → Option RawSubmission)
    (orch : RawSubmission → OrchResult)
    (up : NormalizedRecord → List NormalizedRecord → StoreResult) (now : Nat)
    (line : Str) (rest : List Str) (st : List NormalizedRecord) (summ : RunSummary)
    (raw : RawSubmission) (f : OrchFailure) (a : Nat)
    (hp : parseLine line = some raw) (ho : orch raw = .rejected f a) :
    etlRun parseLine orch up now (line :: rest) st summ =
      etlRun parseLine orch up now rest st
        (addReject { summ with extracted := summ.extracted + 1 } raw.id (.orchFailure f)) := by
  rw [etlRun, hp]
  simp only [ho]

theorem etlRun_store_fatal (parseLine : Str → Option RawSubmission)
    (orch : RawSubmission → OrchResult)
    (up : NormalizedRecord → List NormalizedRecord → StoreResult) (now : Nat)
    (line : Str) (rest : List Str) (st : List NormalizedRecord) (summ : RunSummary)
    (raw : RawSubmission) (m : StructuredMetadata) (a : Nat)
    (hp : parseLine line = some raw) (ho : orch raw = .accepted m a)
    (hu : up (mkNormalizedRecord raw m now) st = .fatal) :
    etlRun parseLine orch up now (line :: rest) st summ = .error () := by
  rw [etlRun, hp]
  simp only [ho, hu]

theorem etlRun_store_recordError (parseLine : Str → Option RawSubmission)
    (orch : RawSubmission → OrchResult)
    (up : NormalizedRecord → List NormalizedRecord → StoreResult) (now : Nat)
    (line : Str) (rest : List Str) (st : List NormalizedRecord) (summ : RunSummary)
    (raw : RawSubmission) (m : StructuredMetadata) (a : Nat)
    (hp : parseLine line = some raw) (ho : orch raw = .accepted m a)
    (hu : up (mkNormalizedRecord raw m now) st = .recordError) :
    etlRun parseLine orch up now (line :: rest) st summ =
      etlRun parseLine orch up now rest st
        (addReject { summ with
          extracted := summ.extracted + 1,
          transformed := summ.transformed + 1 } raw.id .storeRecordError) := by
  rw [etlRun, hp]
  simp only [ho, hu]

theorem etlRun_store_ok (parseLine : Str → Option RawSubmission)
    (orch : RawSubmission → OrchResult)
    (up : NormalizedRecord → List NormalizedRecord → StoreResult) (now : Nat)
    (line : Str) (rest : List Str) (st st2 : List NormalizedRecord) (summ : RunSummary)
    (raw : RawSubmission) (m : StructuredMetadata) (a : Nat)
    (hp : parseLine line = some raw) (ho : orch raw = .accepted m a)
    (hu : up (mkNormalizedRecord raw m now) st = .ok st2) :
    etlRun parseLine orch up now (line :: rest) st summ =
      etlRun parseLine orch up now rest st2
        { summ with
          extracted := summ.extracted + 1,
          transformed := summ.transformed + 1,
          loaded := summ.loaded + 1 } := by
  rw [etlRun, hp]
  simp only [ho, hu]

/-- C7: the ETL Driver is fail-soft at the record level — a malformed line
is counted as rejected with reason MalformedInput and the remaining
records are still processed; as long as the store never reports a
connectivity-level failure, no record's failure aborts the run and the
final summary carries one MalformedInput rejection per unparsable
line. -/
theorem c7_etl_fail_soft (parseLine : Str → Option RawSubmission)
    (orch : RawSubmission → OrchResult)
    (up : NormalizedRecord → List NormalizedRecord → StoreResult) (now : Nat)
    (hnf : ∀ r st, up r st ≠ .fatal) :
    (∀ (lines : List Str) (st : List NormalizedRecord) (summ : RunSummary),
      ∃ summ2 st2, etlRun parseLine orch up now lines st summ = .ok (summ2, st2) ∧
        malformedCount summ2 =
          malformedCount summ + lines.countP (fun l => (parseLine l).isNone)) ∧
    (∀ (line : Str) (rest : List Str) (st : List NormalizedRecord) (summ : RunSummary),
      parseLine line = none →
      etlRun parseLine orch up now (line :: rest) st summ =
        etlRun parseLine orch up now rest st (addReject summ [] .malformedInput)) := by
  constructor
  · intro lines
    induction lines with
    | nil =>
      intro st summ
      exact ⟨summ, st, etlRun_nil parseLine orch up now st summ, by simp⟩
    | cons line rest ih =>
      intro st summ
      rcases hp : parseLine line with _ | raw
      · obtain ⟨s2, t2, heq, hc⟩ := ih st (addReject summ [] .malformedInput)
        refine ⟨s2, t2, ?_, ?_⟩
        · rw [etlRun_malformed parseLine orch up now line rest st summ hp, heq]
        · rw [hc, malformedCount_addReject]
          simp [hp, List.countP_cons]
          omega
      · rcases ho : orch raw with ⟨m, a⟩ | ⟨f, a⟩
        · rcases hu : up (mkNormalizedRecord raw m now) st with st2 | _ | _
          · obtain ⟨s2, t2, heq, hc⟩ := ih st2 { summ with
              extracted := summ.extracted + 1,
              transformed := summ.transformed + 1,
              loaded := summ.loaded + 1 }
            refine ⟨s2, t2, ?_, ?_⟩
            · rw [etlRun_store_ok parseLine orch up now line rest st st2 summ raw m a hp ho hu,
                heq]
            · rw [hc]
              simp [hp, List.countP_cons, malformedCount]
          · obtain ⟨s2, t2, heq, hc⟩ := ih st
              (addReject { summ with
                extracted := summ.extracted + 1,
                transformed := summ.transformed + 1 } raw.id .storeRecordError)
            refine ⟨s2, t2, ?_, ?_⟩
            · rw [etlRun_store_recordError parseLine orch up now line rest st summ raw m a
                hp ho hu, heq]
            · rw [hc, malformedCount_addReject]
              simp [hp, List.countP_cons, malformedCount]
          · exact absurd hu (hnf _ _)
        · obtain ⟨s2, t2, heq, hc⟩ := ih st
            (addReject { summ with extracted := summ.extracted + 1 } raw.id (.orchFailure f))
          refine ⟨s2, t2, ?_, ?_⟩
          · rw [etlRun_rejected parseLine orch up now line rest st summ raw f a hp ho, heq]
          · rw [hc, malformedCount_addReject]
            simp [hp, List.countP_cons, malformedCount]
  · intro line rest st summ hp
    exact etlRun_malformed parseLine orch up now line rest st summ hp

/-- C7 witness: with a store that always succeeds and an orchestrator that
always rejects, a two-line batch with one unparsable line completes and
reports one MalformedInput rejection. -/
theorem c7_etl_fail_soft_witness :
    ∃ summ2 st2,
      etlRun (fun l => if l = ['g'] then some ⟨['i'], [], [], [], [], [], []⟩ else none)
        (fun _ => .rejected (.stage .transportError) 3) (fun _ st => .ok st) 0
        [['x'], ['g']] [] ⟨0, 0, 0, 0, []⟩ = .ok (summ2, st2) ∧
      malformedCount summ2 = malformedCount ⟨0, 0, 0, 0, []⟩ +
        ([['x'], ['g']].countP (fun l =>
          ((if l = ['g'] then some (⟨['i'], [], [], [], [], [], []⟩ : RawSubmission)
            else none).isNone))) :=
  (c7_etl_fail_soft (fun l => if l = ['g'] then some ⟨['i'], [], [], [], [], [], []⟩ else none)
    (fun _ => .rejected (.stage .transportError) 3) (fun _ st => .ok st) 0
    (fun r st h => StoreResult.noConfusion h)).1 [['x'], ['g']] [] ⟨0, 0, 0, 0, []⟩

theorem tagsOf_some (c : Jval) (xs : List Jval) (h : tagsOf c = some xs) :
    jGet c keyTags = some (.arr xs) := by
  rw [tagsOf] at h
  rcases hg : jGet c keyTags with _ | jv
  · rw [hg] at h
    exact Option.noConfusion h
  · rcases jv with s | xs2 | fs
    · rw [hg] at h
      exact Option.noConfusion h
    · rw [hg] at h
      have h2 : xs2 = xs := Option.some.inj h
      rw [h2]
    · rw [hg] at h
      exact Option.noConfusion h

theorem summaryOf_some (c : Jval) (s : Str) (h : summaryOf c = some s) :
    jGet c keySummary = some (.str s) := by
  rw [summaryOf] at h
  rcases hg : jGet c keySummary with _ | jv
  · rw [hg] at h
    exact Option.noConfusion h
  · rcases jv with s2 | xs2 | fs
    · rw [hg] at h
      have h2 : s2 = s := Option.some.inj h
      rw [h2]
    · rw [hg] at h
      exact Option.noConfusion h
    · rw [hg] at h
      exact Option.noConfusion h

theorem asStrings_eq : ∀ (xs : List Jval) (tags : List Str),
    asStrings xs = some tags → xs = tags.map Jval.str := by
  intro xs
  induction xs with
  | nil =>
    intro tags h
    rw [asStrings] at h
    rw [← Option.some.inj h]
    rfl
  | cons x rest ih =>
    intro tags h
    rcases x with s | a | f
    · rw [asStrings] at h
      rcases hr : asStrings rest with _ | ss
      · rw [hr] at h
        exact Option.noConfusion h
      · rw [hr] at h
        rw [← Option.some.inj h, List.map_cons, ← ih ss hr]
    · exact Option.noConfusion h
    · exact Option.noConfusion h

/-- C6: the Validator runs its four checks in the fixed order and
short-circuits on the first failure — a tag-shape failure is reported on
field `tags` whatever the summary looks like; with well-shaped tags a
summary failure is reported on field `summary`; duplicate tags are only
reported once everything earlier passed; and it accepts, unmodified,
exactly the candidates passing all four checks. -/
theorem c6_validator_order (sid : Str) (c : Jval) :
    ((∀ xs, tagsOf c = some xs → xs.length ≠ 3) →
      ∃ r, validate sid c = .invalid r .tags ∧
        (r = .tagsMissing ∨ r = .tagsNotSequence ∨ r = .tagCountNotThree)) ∧
    (∀ xs, tagsOf c = some xs → xs.length = 3 →
      (∀ tags, asStrings xs = some tags → ¬tags.all tagOk = true) →
      ∃ r, validate sid c = .invalid r .tags ∧
        (r = .tagNotString ∨ r = .tagEmptyOrControl)) ∧
    (∀ xs tags, tagsOf c = some xs → xs.length = 3 → asStrings xs = some tags →
      tags.all tagOk = true →
      (∀ s, summaryOf c = some s → s = [] ∨ ¬wordCount s ≤ 25) →
      ∃ r, validate sid c = .invalid r .summary) ∧
    (∀ xs tags s, tagsOf c = some xs → xs.length = 3 → asStrings xs = some tags →
      tags.all tagOk = true → summaryOf c = some s → s ≠ [] → wordCount s ≤ 25 →
      ¬(tags.map foldCase).Nodup →
      validate sid c = .invalid .duplicateTags .tags) ∧
    (∀ xs tags s, tagsOf c = some xs → xs.length = 3 → asStrings xs = some tags →
      tags.all tagOk = true → summaryOf c = some s → s ≠ [] → wordCount s ≤ 25 →
      (tags.map foldCase).Nodup →
      validate sid c = .valid ⟨tags, s, sid⟩) := by
  refine ⟨?_, ?_, ?_, ?_, ?_⟩
  · intro h1
    rcases hg : jGet c keyTags with _ | jv
    · exact ⟨.tagsMissing, by rw [validate, hg], Or.inl rfl⟩
    · rcases jv with s | xs | fs
      · exact ⟨.tagsNotSequence, by rw [validate, hg], Or.inr (Or.inl rfl)⟩
      · have htag : tagsOf c = some xs := by rw [tagsOf, hg]
        refine ⟨.tagCountNotThree, ?_, Or.inr (Or.inr rfl)⟩
        have hveq : validate sid c = checkTags sid xs c := by rw [validate, hg]
        rw [hveq, checkTags]
        exact if_neg (h1 xs htag)
      · exact ⟨.tagsNotSequence, by rw [validate, hg], Or.inr (Or.inl rfl)⟩
  · intro xs htag hlen h2
    have hg := tagsOf_some c xs htag
    have hveq : validate sid c = checkTags sid xs c := by rw [validate, hg]
    rw [hveq, checkTags, if_pos hlen]
    rcases has : asStrings xs with _ | tags
    · exact ⟨.tagNotString, by rw [checkTagStrings], Or.inl rfl⟩
    · refine ⟨.tagEmptyOrControl, ?_, Or.inr rfl⟩
      rw [checkTagStrings]
      exact if_neg (h2 tags has)
  · intro xs tags htag hlen has hall h3
    have hg := tagsOf_some c xs htag
    have hveq : validate sid c = checkTags sid xs c := by rw [validate, hg]
    rw [hveq, checkTags, if_pos hlen, has, checkTagStrings, if_pos hall,
      checkSummary]
    rcases hs : jGet c keySummary with _ | jv
    · exact ⟨.summaryMissing, by rw [checkSummaryVal]⟩
    · rcases jv with sum | a | f
      · have hsum : summaryOf c = some sum := by rw [summaryOf, hs]
        rw [checkSummaryVal]
        rcases h3 sum hsum with hemp | hwc
        · refine ⟨.summaryEmpty, ?_⟩
          rw [if_pos (by simp [hemp])]
        · refine ⟨.summaryTooLong, ?_⟩
          have hne : sum.isEmpty = false := by
            rcases sum with _ | ⟨a, s2⟩
            · exact absurd (by decide : wordCount [] ≤ 25) hwc
            · rfl
          rw [if_neg (by simp [hne]), if_neg hwc]
      · refine ⟨.summaryNotString, ?_⟩
        rw [checkSummaryVal]
        intro sum hbad
        exact Jval.noConfusion hbad
      · refine ⟨.summaryNotString, ?_⟩
        rw [checkSummaryVal]
        intro sum hbad
        exact Jval.noConfusion hbad
  · intro xs tags s htag hlen has hall hsum hne hwc hdup
    have hg := tagsOf_some c xs htag
    have hs := summaryOf_some c s hsum
    have hveq : validate sid c = checkTags sid xs c := by rw [validate, hg]
    rw [hveq, checkTags, if_pos hlen, has, checkTagStrings, if_pos hall,
      checkSummary, hs, checkSummaryVal, if_neg (by simp [hne]), if_pos hwc]
    exact if_neg hdup
  · intro xs tags s htag hlen has hall hsum hne hwc hnd
    have hg := tagsOf_some c xs htag
    have hs := summaryOf_some c s hsum
    have hveq : validate sid c = checkTags sid xs c := by rw [validate, hg]
    rw [hveq, checkTags, if_pos hlen, has, checkTagStrings, if_pos hall,
      checkSummary, hs, checkSummaryVal, if_neg (by simp [hne]), if_pos hwc]
    exact if_pos hnd

/-- C6 witness: a candidate with a bad summary but well-shaped tags is
rejected on the summary field. -/
theorem c6_validator_order_witness :
    ∃ r, validate ['s']
      (.obj [(keyTags, .arr [.str ['a'], .str ['b'], .str ['c']]),
        (keySummary, .str [])]) = .invalid r .summary :=
  (c6_validator_order ['s'] _).2.2.1 [.str ['a'], .str ['b'], .str ['c']]
    [['a'], ['b'], ['c']] rfl (by decide) (by decide) (by decide)
    (by
      intro s hs
      left
      exact (Option.some.inj hs).symm)

/-- A well-formed candidate whose tags are already lower-case. -/
def candLower : Jval :=
  .obj [(keyTags, .arr [.str ['a'], .str ['b'], .str ['c']]), (keySummary, .str ['o', 'k'])]

/-- A well-formed candidate whose first tag contains upper-case letters. -/
def candUpper : Jval :=
  .obj [(keyTags, .arr [.str ['A', 'I'], .str ['m', 'l'], .str ['c', 'l', 'o', 'u', 'd']]),
    (keySummary, .str ['o', 'k'])]

/-- C1 counterexample: the Validator returns Valid on a candidate whose
tag `AI` is not lower-case — lower-casing is not enforced at validation
time — so accepted StructuredMetadata need not have lower-case tags. -/
theorem c1_counterexample :
    validate ['s'] candUpper =
      .valid ⟨[['A', 'I'], ['m', 'l'], ['c', 'l', 'o', 'u', 'd']], ['o', 'k'], ['s']⟩ ∧
    foldCase ['A', 'I'] ≠ ['A', 'I'] := by
  constructor
  · decide
  · decide

/-- C1 (amended): for every StructuredMetadata that the Validator accepts,
`tags` has exactly 3 entries, unique even after case-folding, each
non-empty and free of control characters after case-folding (but not
necessarily lower-case — the Normalizer lower-cases later), and the
summary is non-empty with word count ≤ 25; nothing is silently fixed: the
accepted metadata carries the candidate's tags and summary verbatim. -/
theorem c1_validator_invariant (sid : Str) (c : Jval) (m : StructuredMetadata)
    (h : validate sid c = .valid m) :
    m.tags.length = 3 ∧ (m.tags.map foldCase).Nodup ∧ m.tags.Nodup ∧
    (∀ t ∈ m.tags, t ≠ []) ∧ (∀ t ∈ m.tags, ¬(foldCase t).any isCtrl = true) ∧
    m.summary ≠ [] ∧ wordCount m.summary ≤ 25 ∧ m.sourceId = sid ∧
    jGet c keyTags = some (.arr (m.tags.map Jval.str)) ∧
    jGet c keySummary = some (.str m.summary) := by
  rcases hg : jGet c keyTags with _ | jv
  · rw [validate, hg] at h
    exact ValidationResult.noConfusion h
  · rcases jv with s | xs | fs
    · rw [validate, hg] at h
      exact ValidationResult.noConfusion h
    · have hveq : validate sid c = checkTags sid xs c := by rw [validate, hg]
      rw [hveq, checkTags] at h
      by_cases hlen : xs.length = 3
      · rw [if_pos hlen] at h
        rcases has : asStrings xs with _ | tags
        · rw [has] at h
          exact ValidationResult.noConfusion h
        · rw [has, checkTagStrings] at h
          by_cases hall : tags.all tagOk = true
          · rw [if_pos hall, checkSummary] at h
            rcases hs : jGet c keySummary with _ | jv2
            · rw [hs] at h
              exact ValidationResult.noConfusion h
            · rcases jv2 with sum | a | f
              · rw [hs, checkSummaryVal] at h
                by_cases hemp : sum.isEmpty = true
                · rw [if_pos hemp] at h
                  exact ValidationResult.noConfusion h
                · rw [if_neg hemp] at h
                  by_cases hwc : wordCount sum ≤ 25
                  · rw [if_pos hwc] at h
                    by_cases hnd : (tags.map foldCase).Nodup
                    · rw [if_pos hnd] at h
                      have hm : (⟨tags, sum, sid⟩ : StructuredMetadata) = m :=
                        ValidationResult.valid.inj h
                      subst hm
                      have hxs := asStrings_eq xs tags has
                      refine ⟨?_, hnd, hnd.of_map, ?_, ?_, ?_, hwc, rfl, ?_, rfl⟩
                      · have : (tags.map Jval.str).length = 3 := by rw [← hxs]; exact hlen
                        simpa using this
                      · intro t ht
                        have hok := List.all_eq_true.mp hall t ht
                        rw [tagOk, Bool.and_eq_true] at hok
                        intro hnil
                        rw [hnil] at hok
                        simp [foldCase] at hok
                      · intro t ht
                        have hok := List.all_eq_true.mp hall t ht
                        rw [tagOk, Bool.and_eq_true] at hok
                        simpa using hok.2
                      · intro hnil
                        apply hemp
                        rw [show sum = [] from hnil]
                        rfl
                      · rw [← hxs]
                    · rw [if_neg hnd] at h
                      exact ValidationResult.noConfusion h
                  · rw [if_neg hwc] at h
                    exact ValidationResult.noConfusion h
              · rw [hs] at h
                exact ValidationResult.noConfusion h
              · rw [hs] at h
                exact ValidationResult.noConfusion h
          · rw [if_neg hall] at h
            exact ValidationResult.noConfusion h
      · rw [if_neg hlen] at h
        exact ValidationResult.noConfusion h
    · rw [validate, hg] at h
      exact ValidationResult.noConfusion h

/-- C1 witness: a fully well-formed candidate is accepted and the
invariant holds for it. -/
theorem c1_validator_invariant_witness :
    validate ['s'] candLower =
      .valid ⟨[['a'], ['b'], ['c']], ['o', 'k'], ['s']⟩ ∧
    (⟨[['a'], ['b'], ['c']], ['o', 'k'], ['s']⟩ : StructuredMetadata).tags.length = 3 :=
  ⟨by decide,
    (c1_validator_invariant ['s'] candLower ⟨[['a'], ['b'], ['c']], ['o', 'k'], ['s']⟩
      (by decide)).1⟩
